import Mathlib

/-!
Verification of the cudf `_lib` aggregation registry and the columnar
compute engine it fronts.

The registry is embedded directly from
`src/python/cudf/cudf/_lib/__init__.py`.  The compute engine itself
(kernels, sort, join, groupby, stream compaction, typecast) is not under
`src/`; those components are modelled from the specification, as marked on
each definition.
-/

namespace Cudf

/-! ## The module registry (src/python/cudf/cudf/_lib/__init__.py) -/

/-- A top-level statement of a Python module body, restricted to the
constructs relevant here: importing a submodule, defining a function,
defining a class. -/
inductive Stmt where
  | importSub (name : String)
  | defFun (name : String)
  | defClass (name : String)
deriving DecidableEq

/-- The body of `cudf/_lib/__init__.py`, statement by statement: a single
`from . import (...)` which imports each listed submodule in order, and
nothing else. -/
def libInitStmts : List Stmt :=
  [Stmt.importSub "avro",
   Stmt.importSub "binops",
   Stmt.importSub "concat",
   Stmt.importSub "copying",
   Stmt.importSub "csv",
   Stmt.importSub "cudf",
   Stmt.importSub "dlpack",
   Stmt.importSub "gpuarrow",
   Stmt.importSub "groupby",
   Stmt.importSub "hash",
   Stmt.importSub "issorted",
   Stmt.importSub "join",
   Stmt.importSub "json",
   Stmt.importSub "nvtx",
   Stmt.importSub "orc",
   Stmt.importSub "parquet",
   Stmt.importSub "quantile",
   Stmt.importSub "reduce",
   Stmt.importSub "replace",
   Stmt.importSub "rolling",
   Stmt.importSub "search",
   Stmt.importSub "sort",
   Stmt.importSub "stream_compaction",
   Stmt.importSub "transpose",
   Stmt.importSub "typecast",
   Stmt.importSub "unaryops",
   Stmt.importSub "utils"]

/-- Whether a statement is a submodule re-export. -/
def Stmt.isImportStmt : Stmt → Bool
  | Stmt.importSub _ => true
  | _ => false

/-- The name a statement binds in the enclosing module namespace. -/
def Stmt.boundName : Stmt → String
  | Stmt.importSub n => n
  | Stmt.defFun n => n
  | Stmt.defClass n => n

/-- Names of submodules a statement list imports. -/
def importedNames (l : List Stmt) : List String :=
  l.filterMap fun s => match s with
    | Stmt.importSub n => some n
    | _ => none

/-- The submodules re-exported by `cudf/_lib/__init__.py`. -/
def submoduleNames : List String := importedNames libInitStmts

/-- Python module-load semantics for a statement list: statements run in
order; an `import` of an unavailable submodule raises, aborting the whole
module load (`none`); otherwise every statement adds its bound name.
`avail` says which submodules import successfully. -/
def runStmts (avail : String → Bool) : List Stmt → Option (List String)
  | [] => some []
  | Stmt.importSub n :: rest =>
      if avail n then (runStmts avail rest).map (fun bs => n :: bs) else none
  | Stmt.defFun n :: rest => (runStmts avail rest).map (fun bs => n :: bs)
  | Stmt.defClass n :: rest => (runStmts avail rest).map (fun bs => n :: bs)

/-- Loading the `_lib` registry module under submodule availability `avail`. -/
def loadRegistry (avail : String → Bool) : Option (List String) :=
  runStmts avail libInitStmts

/-- The engine entry points the binding contract names (spec §6). -/
def engineEntryPoints : List String :=
  ["join", "groupby", "sort", "hash", "search", "stream_compaction",
   "typecast", "unaryops", "binops", "quantile", "reduce", "rolling",
   "transpose"]

/-- The file-format readers the spec names (spec §6). -/
def readerFormats : List String :=
  ["csv", "json", "parquet", "orc", "avro"]

/-- All module names accounted for by the spec: entry points, readers,
tracing hooks (nvtx), and Arrow/DLPack interop (gpuarrow, dlpack). -/
def specNamedModules : List String :=
  engineEntryPoints ++ readerFormats ++ ["nvtx", "gpuarrow", "dlpack"]

theorem runStmts_characterization (avail : String → Bool) (l : List Stmt) :
    runStmts avail l =
      if (importedNames l).all avail then some (l.map Stmt.boundName)
      else none := by
  induction l with
  | nil => rfl
  | cons s rest ih =>
      cases s with
      | importSub n =>
          simp only [runStmts, importedNames, List.filterMap_cons, ih]
          by_cases h : avail n = true
          · simp [importedNames, h, Stmt.boundName]
          · simp [importedNames, h]
      | defFun n =>
          simp [runStmts, importedNames, List.filterMap_cons, ih, List.all_cons,
            Stmt.boundName]
      | defClass n =>
          simp [runStmts, importedNames, List.filterMap_cons, ih, List.all_cons,
            Stmt.boundName]

/-- **C1.** The registry module contains no logic: every statement in its
body is a submodule re-export (no function or class definitions), and for
every engine entry point of the binding contract and every file-format
reader there is a correspondingly named submodule import. -/
theorem c1_pure_registry :
    (∀ s ∈ libInitStmts, s.isImportStmt = true) ∧
    (∀ n ∈ engineEntryPoints ++ readerFormats,
        Stmt.importSub n ∈ libInitStmts) := by
  decide

/-- **C9 counterexample.** The registry does not import 28 submodules: the
body of `__init__.py` has exactly 27 import statements, and a full load
binds exactly 27 names, not 28. -/
theorem c9_counterexample :
    libInitStmts.length = 27 ∧ ¬ libInitStmts.length = 28 ∧
    loadRegistry (fun _ => true) = some submoduleNames ∧
    submoduleNames.length = 27 ∧ ¬ submoduleNames.length = 28 := by
  refine ⟨by decide, by decide, ?_, by decide, by decide⟩
  rw [loadRegistry, runStmts_characterization]
  decide

/-- **C9 (amended).** Importing the aggregation module eagerly imports all
27 of its submodules at load time and binds exactly those 27 names: the
load succeeds, binding the 27 submodule names, exactly when every
submodule import succeeds, so a failure in any single submodule makes the
registry unimportable. -/
theorem c9_eager_import (avail : String → Bool) :
    loadRegistry avail =
      if submoduleNames.all avail then some submoduleNames else none := by
  rw [loadRegistry, runStmts_characterization]
  have h : libInitStmts.map Stmt.boundName = submoduleNames := by decide
  rw [h, show importedNames libInitStmts = submoduleNames from rfl]

/-- **C10.** The registry exposes submodules beyond the spec's catalog:
exactly `concat`, `copying`, `cudf`, `issorted`, `replace`, `utils` are
re-exported names matching no operation in the spec's purpose statement or
binding contract, while `nvtx`, `gpuarrow`, `dlpack` (tracing, Arrow/DLPack
interop) are spec-named and present. -/
theorem c10_extra_modules :
    submoduleNames.filter (fun n => !(specNamedModules.contains n)) =
      ["concat", "copying", "cudf", "issorted", "replace", "utils"] ∧
    (∀ n ∈ ["nvtx", "gpuarrow", "dlpack"],
        Stmt.importSub n ∈ libInitStmts) := by
  decide

/-! ## Column/Table data model (spec §3)

The engine code is not under `src/`; the data model and operations below
are modelled from the specification. -/

/-- Modelled from the spec: a nullable cell of a Column — `none` is a null
row (spec §3, null mask semantics); values are integers, standing for any
fixed-width element type. -/
abbrev Cell := Option Int

/-- Modelled from the spec: a Column as its per-row cells (data buffer
plus null mask collapsed into `Option`). -/
abbrev Column := List Cell

/-- Modelled from the spec: a Table row — one cell per column. -/
abbrev Row := List Cell

/-! ## Null-aware kernel layer (spec §4.1), claim C2 -/

/-- Modelled from the spec: lifting a binary operation to nullable cells —
the operation is evaluated only when both cells are valid; any null input
yields a null output (spec §4.1). -/
def nullBin (f : Int → Int → Int) : Cell → Cell → Cell
  | some x, some y => some (f x y)
  | _, _ => none

/-- Modelled from the spec: an elementwise binary kernel over two Columns
(the engine's `binops` entry point; code not under `src/`). -/
def binopKernel (f : Int → Int → Int) (a b : Column) : Column :=
  List.zipWith (nullBin f) a b

/-- Modelled from the spec: an elementwise unary kernel over a Column
(the engine's `unaryops` entry point; code not under `src/`):
`Option.map` evaluates the operation only on valid cells. -/
def unopKernel (u : Int → Int) (a : Column) : Column :=
  a.map (fun c => c.map u)

theorem binopKernel_getElem? (f : Int → Int → Int) (a b : Column) (i : Nat) :
    (binopKernel f a b)[i]? =
      match a[i]?, b[i]? with
      | some x, some y => some (nullBin f x y)
      | _, _ => none := by
  rw [binopKernel, List.getElem?_zipWith]
  cases a[i]? <;> cases b[i]? <;> rfl

/-- **C2.** For every elementwise unary or binary kernel on Columns of
equal row count and every row position: the output row is null iff some
corresponding input row is null there, and when an input row is null the
operation is not evaluated (two kernels with different operations agree at
that position). -/
theorem c2_null_propagation (f g : Int → Int → Int) (u v : Int → Int)
    (a b : Column) (h : a.length = b.length) (i : Nat) :
    ((binopKernel f a b)[i]? = some none ↔
        a[i]? = some none ∨ b[i]? = some none) ∧
    (a[i]? = some none ∨ b[i]? = some none →
        (binopKernel f a b)[i]? = (binopKernel g a b)[i]?) ∧
    ((unopKernel u a)[i]? = some none ↔ a[i]? = some none) ∧
    (a[i]? = some none →
        (unopKernel u a)[i]? = (unopKernel v a)[i]?) := by
  have hlen : a[i]? = none ↔ b[i]? = none := by
    rw [List.getElem?_eq_none_iff, List.getElem?_eq_none_iff, h]
  have key : ∀ k : Int → Int → Int,
      (binopKernel k a b)[i]? =
        match a[i]?, b[i]? with
        | some x, some y => some (nullBin k x y)
        | _, _ => none := fun k => binopKernel_getElem? k a b i
  refine ⟨?_, ?_, ?_, ?_⟩
  · rw [key f]
    cases ha : a[i]? with
    | none =>
        have hb : b[i]? = none := hlen.mp ha
        simp [hb]
    | some x =>
        cases hb : b[i]? with
        | none =>
            exact absurd (hlen.mpr hb) (by simp [ha])
        | some y =>
            cases x <;> cases y <;> simp [nullBin]
  · intro hnull
    rw [key f, key g]
    cases ha : a[i]? with
    | none => simp
    | some x =>
        cases hb : b[i]? with
        | none => simp
        | some y =>
            rcases hnull with hx | hy
            · rw [ha] at hx
              cases hx
              cases y <;> simp [nullBin]
            · rw [hb] at hy
              cases hy
              cases x <;> simp [nullBin]
  · rw [unopKernel, List.getElem?_map]
    cases ha : a[i]? with
    | none => simp
    | some x => cases x <;> simp [Option.map_eq_none']
  · intro ha
    rw [unopKernel, unopKernel, List.getElem?_map, List.getElem?_map, ha]
    rfl

/-- Concrete input Columns for kernel-layer witnesses. -/
def colA : Column := [some 1, none]

/-- Concrete input Column with a null in the first row. -/
def colB : Column := [none, some 2]

/-- **C2 witness**: at row 0 of `colA`/`colB` (second input null) the
binary kernel output is null; at row 1 of `colA` (input null) the unary
kernel output is null. -/
theorem c2_witness :
    (binopKernel (fun x y => x + y) colA colB)[0]? = some none ∧
    (unopKernel (fun x => x + 1) colA)[1]? = some none :=
  ⟨((c2_null_propagation (fun x y => x + y) (fun x y => x * y)
        (fun x => x + 1) (fun x => x) colA colB rfl 0).1).mpr (Or.inr rfl),
   ((c2_null_propagation (fun x y => x + y) (fun x y => x * y)
        (fun x => x + 1) (fun x => x) colA colB rfl 1).2.2.1).mpr rfl⟩

/-! ## Stream compaction engine (spec §4.6), claim C5 -/

/-- Modelled from the spec: predicate-driven filtering — keep exactly the
rows whose predicate entry is true, in order (the engine's
`stream_compaction` entry point, `apply_boolean_mask`; code not under
`src/`). -/
def applyBooleanMask (rows : List Row) (mask : List Bool) : List Row :=
  ((rows.zip mask).filter (fun p => p.2)).map (fun p => p.1)

theorem applyBooleanMask_nil (mask : List Bool) :
    applyBooleanMask [] mask = [] := by
  simp [applyBooleanMask]

theorem applyBooleanMask_cons (r : Row) (rs : List Row) (b : Bool)
    (ms : List Bool) :
    applyBooleanMask (r :: rs) (b :: ms) =
      if b then r :: applyBooleanMask rs ms else applyBooleanMask rs ms := by
  cases b <;> simp [applyBooleanMask, List.zip_cons_cons, List.filter_cons]

theorem applyBooleanMask_length (rows : List Row) (mask : List Bool)
    (h : rows.length = mask.length) :
    (applyBooleanMask rows mask).length = List.count true mask := by
  induction rows generalizing mask with
  | nil =>
      cases mask with
      | nil => rfl
      | cons b ms => simp at h
  | cons r rs ih =>
      cases mask with
      | nil => simp at h
      | cons b ms =>
          have h' : rs.length = ms.length := by simpa using h
          rw [applyBooleanMask_cons]
          cases b <;> simp [List.count_cons, ih ms h']

theorem applyBooleanMask_sublist (rows : List Row) (mask : List Bool) :
    (applyBooleanMask rows mask).Sublist rows := by
  induction rows generalizing mask with
  | nil => simp [applyBooleanMask_nil]
  | cons r rs ih =>
      cases mask with
      | nil => simp [applyBooleanMask]
      | cons b ms =>
          rw [applyBooleanMask_cons]
          cases b
          · exact (ih ms).cons r
          · exact (List.cons_sublist_cons).mpr (ih ms)

theorem applyBooleanMask_partition (rows : List Row) (mask : List Bool)
    (h : rows.length = mask.length) :
    (applyBooleanMask rows mask ++
        applyBooleanMask rows (mask.map (fun x => !x))).Perm rows := by
  induction rows generalizing mask with
  | nil => simp [applyBooleanMask_nil]
  | cons r rs ih =>
      cases mask with
      | nil => simp at h
      | cons b ms =>
          have h' : rs.length = ms.length := by simpa using h
          rw [List.map_cons, applyBooleanMask_cons, applyBooleanMask_cons]
          cases b
          · simp only [Bool.not_false, if_neg Bool.false_ne_true, if_pos rfl]
            exact List.perm_middle.trans ((ih ms h').cons r)
          · simp only [Bool.not_true, if_pos rfl, if_neg Bool.false_ne_true]
            exact (ih ms h').cons r

/-- **C5.** Stream compaction on a Table (as its rows) with a boolean
predicate of matching row count: the output has as many rows as the
predicate has `true` entries, the output rows appear in their original
relative order (a sublist), and filtering with the predicate and with its
negation partitions the original rows with none lost or duplicated (the
concatenation is a permutation of the input). -/
theorem c5_stream_compaction (rows : List Row) (mask : List Bool)
    (h : rows.length = mask.length) :
    (applyBooleanMask rows mask).length = List.count true mask ∧
    (applyBooleanMask rows mask).Sublist rows ∧
    (applyBooleanMask rows mask ++
        applyBooleanMask rows (mask.map (fun x => !x))).Perm rows :=
  ⟨applyBooleanMask_length rows mask h,
   applyBooleanMask_sublist rows mask,
   applyBooleanMask_partition rows mask h⟩

/-- Concrete rows for the stream-compaction witness. -/
def rowsC5 : List Row := [[some 1], [some 2], [some 3]]

/-- Concrete predicate for the stream-compaction witness. -/
def maskC5 : List Bool := [true, false, true]

/-- **C5 witness**: the compaction properties at a concrete 3-row Table
and predicate `[true, false, true]`. -/
theorem c5_witness :
    (applyBooleanMask rowsC5 maskC5).length = List.count true maskC5 ∧
    (applyBooleanMask rowsC5 maskC5).Sublist rowsC5 ∧
    (applyBooleanMask rowsC5 maskC5 ++
        applyBooleanMask rowsC5 (maskC5.map (fun x => !x))).Perm rowsC5 :=
  c5_stream_compaction rowsC5 maskC5 (by decide)

/-! ## Groupby-aggregate engine (spec §4.5), claim C6 -/

/-- Modelled from the spec: groupby with a sum aggregate under the
nulls-grouped policy — rows are partitioned into one group per distinct
key (null keys grouped together, `none` a key like any other), and each
group's value rows are summed (the engine's `groupby` entry point; code
not under `src/`). -/
def groupbySum (keys : List Cell) (vals : List Int) : List (Cell × Int) :=
  keys.dedup.map (fun k =>
    (k, (((keys.zip vals).filter (fun p => p.1 == k)).map (fun p => p.2)).sum))

/-- **C6.** Groupby forms one group per distinct key with nulls grouped
together: the emitted group keys are exactly the distinct keys (no
duplicate groups, every key row covered), and on the key column
`[1, 2, 1, null]` with values `[10, 20, 30, 40]`, groupby-sum yields
exactly the groups `{1 → 40, 2 → 20, null → 40}` up to order. -/
theorem c6_groupby_nulls_grouped :
    (∀ (keys : List Cell) (vals : List Int),
        (groupbySum keys vals).map Prod.fst = keys.dedup ∧
        ((groupbySum keys vals).map Prod.fst).Nodup ∧
        (∀ k : Cell, k ∈ keys ↔ k ∈ (groupbySum keys vals).map Prod.fst)) ∧
    (groupbySum [some 1, some 2, some 1, none] [10, 20, 30, 40]).Perm
      [(some 1, 40), (some 2, 20), (none, 40)] := by
  constructor
  · intro keys vals
    have hfst : (groupbySum keys vals).map Prod.fst = keys.dedup := by
      rw [groupbySum, List.map_map]
      exact List.map_id'' (fun k => rfl) keys.dedup
    refine ⟨hfst, ?_, ?_⟩
    · rw [hfst]; exact keys.nodup_dedup
    · intro k; rw [hfst]; exact (List.mem_dedup).symm
  · decide

/-! ## Typecast (spec §4.1 lossy-aware casts), claims C7 and C8 -/

/-- The error kinds of the engine (spec §7). -/
inductive ErrKind where
  | typeMismatch
  | overflow
  | shapeMismatch
  | outOfMemory
  | invalidArgument
  | unsupportedType
deriving DecidableEq

/-- Modelled from the spec: the caller's declared policy for lossy casts
(spec §4.1) — `failOnLoss` is the default when no saturation/null policy
and no explicit rounding mode was requested. -/
inductive CastPolicy where
  | failOnLoss
  | saturate
  | nullify
deriving DecidableEq

/-- Modelled from the spec: casting a column of values into a target type
whose representable range is `[lo, hi]` (the engine's `typecast` entry
point; code not under `src/`).  Under the default policy any
out-of-range value fails the whole operation with `Overflow`; `saturate`
clamps; `nullify` nulls out-of-range rows. -/
def castColumn (p : CastPolicy) (lo hi : Int) (c : List Int) :
    Except ErrKind Column :=
  match p with
  | CastPolicy.failOnLoss =>
      if c.all (fun v => decide (lo ≤ v) && decide (v ≤ hi)) then
        Except.ok (c.map some)
      else Except.error ErrKind.overflow
  | CastPolicy.saturate => Except.ok (c.map (fun v => some (max lo (min v hi))))
  | CastPolicy.nullify =>
      Except.ok (c.map (fun v => if lo ≤ v ∧ v ≤ hi then some v else none))

/-- **C7.** When a value of the cast input falls outside the target
range `[lo, hi]` and the caller requested no saturation/null policy
(default policy), the whole cast fails with the `Overflow` error kind and
no output column — truncated or otherwise — is produced. -/
theorem c7_cast_default_overflow (lo hi : Int) (c : List Int) (v : Int)
    (hv : v ∈ c) (hout : v < lo ∨ hi < v) :
    castColumn CastPolicy.failOnLoss lo hi c = Except.error ErrKind.overflow ∧
    ∀ out : Column, castColumn CastPolicy.failOnLoss lo hi c ≠ Except.ok out := by
  have hall : ¬ (c.all (fun v => decide (lo ≤ v) && decide (v ≤ hi)) = true) := by
    intro hall
    have hb := List.all_eq_true.mp hall v hv
    simp only [Bool.and_eq_true, decide_eq_true_eq] at hb
    rcases hout with h | h <;> omega
  have hred : castColumn CastPolicy.failOnLoss lo hi c =
      Except.error ErrKind.overflow := by
    simp only [castColumn]
    exact if_neg hall
  refine ⟨hred, fun out hok => ?_⟩
  rw [hred] at hok
  exact Except.noConfusion hok

/-- **C7 witness**: casting `[5]` into the range `[0, 3]` under the
default policy fails with `Overflow`. -/
theorem c7_witness :
    castColumn CastPolicy.failOnLoss 0 3 [5] = Except.error ErrKind.overflow :=
  (c7_cast_default_overflow 0 3 [5] 5 (by decide) (Or.inr (by decide))).1

/-! ## Join engine (spec §4.4), claims C4 and C8 -/

/-- Modelled from the spec: the build-side row indices whose key equals
`k`, in row order, offset by `j` (spec §4.2: the hash table maps a key to
the chain of all its row indices; null keys match null keys). -/
def matchIdxsAux (k : Cell) (r : List Cell) (j : Nat) : List Nat :=
  match r with
  | [] => []
  | x :: xs =>
      if x = k then j :: matchIdxsAux k xs (j + 1)
      else matchIdxsAux k xs (j + 1)

/-- Build-side row indices matching key `k`. -/
def matchIdxs (k : Cell) (r : List Cell) : List Nat := matchIdxsAux k r 0

/-- Number of build-side rows matching key `k`. -/
def matchCount (k : Cell) (r : List Cell) : Nat :=
  r.countP (fun y => decide (y = k))

/-- Modelled from the spec: inner equi-join on single key columns — for
each probe row (left), enumerate all matching build-side (right) indices
in match-discovery order, emitting one (left index, right index) pair per
match (the engine's `join` entry point; code not under `src/`). -/
def innerJoinAux (l r : List Cell) (i : Nat) : List (Nat × Nat) :=
  match l with
  | [] => []
  | k :: ls => (matchIdxs k r).map (fun j => (i, j)) ++ innerJoinAux ls r (i + 1)

/-- Inner equi-join of key columns `l` and `r`, as index pairs. -/
def innerJoin (l r : List Cell) : List (Nat × Nat) := innerJoinAux l r 0

/-- The inner-join output as pairs of key values. -/
def innerJoinPairs (l r : List Cell) : List (Cell × Cell) :=
  (innerJoin l r).map (fun p => ((l[p.1]?).getD none, (r[p.2]?).getD none))

/-- Modelled from the spec: left-outer join — matched probe rows expand
into one pair per match, unmatched probe rows are paired with a sentinel
(`none`). -/
def leftOuterJoinAux (l r : List Cell) (i : Nat) : List (Nat × Option Nat) :=
  match l with
  | [] => []
  | k :: ls =>
      (if (matchIdxs k r).isEmpty then [(i, none)]
       else (matchIdxs k r).map (fun j => (i, some j))) ++
      leftOuterJoinAux ls r (i + 1)

/-- Left-outer equi-join of key columns `l` and `r`. -/
def leftOuterJoin (l r : List Cell) : List (Nat × Option Nat) :=
  leftOuterJoinAux l r 0

/-- Probe-side row indices with no build-side match, offset by `i`. -/
def leftAntiIdxsAux (l r : List Cell) (i : Nat) : List Nat :=
  match l with
  | [] => []
  | k :: ls =>
      (if (matchIdxs k r).isEmpty then [i] else []) ++
      leftAntiIdxsAux ls r (i + 1)

/-- Left-anti join: probe-side row indices with no match. -/
def leftAntiIdxs (l r : List Cell) : List Nat := leftAntiIdxsAux l r 0

/-- Probe-side row indices with at least one match, offset by `i`. -/
def leftSemiIdxsAux (l r : List Cell) (i : Nat) : List Nat :=
  match l with
  | [] => []
  | k :: ls =>
      (if (matchIdxs k r).isEmpty then [] else [i]) ++
      leftSemiIdxsAux ls r (i + 1)

/-- Left-semi join: probe-side row indices with at least one match,
without duplication. -/
def leftSemiIdxs (l r : List Cell) : List Nat := leftSemiIdxsAux l r 0

/-- Modelled from the spec: full-outer join — the inner matches plus the
unmatched left rows and the unmatched right rows, each paired with a
sentinel. -/
def fullOuterJoin (l r : List Cell) : List (Option Nat × Option Nat) :=
  (innerJoin l r).map (fun p => (some p.1, some p.2)) ++
  (leftAntiIdxs l r).map (fun i => (some i, none)) ++
  (leftAntiIdxs r l).map (fun j => (none, some j))

/-- Number of probe rows of `l` with at least one match in `r`. -/
def matchedCount (l r : List Cell) : Nat :=
  (l.filter (fun k => !(matchIdxs k r).isEmpty)).length

theorem matchIdxsAux_length (k : Cell) (r : List Cell) (j : Nat) :
    (matchIdxsAux k r j).length = matchCount k r := by
  induction r generalizing j with
  | nil => rfl
  | cons x xs ih =>
      rw [matchIdxsAux]
      by_cases h : x = k
      · simp [h, ih (j + 1), matchCount, List.countP_cons]
      · simp [h, ih (j + 1), matchCount, List.countP_cons]

theorem matchIdxs_length (k : Cell) (r : List Cell) :
    (matchIdxs k r).length = matchCount k r :=
  matchIdxsAux_length k r 0

theorem matchIdxs_isEmpty_iff (k : Cell) (r : List Cell) :
    (matchIdxs k r).isEmpty = true ↔ matchCount k r = 0 := by
  rw [List.isEmpty_iff_length_eq_zero, matchIdxs_length]

theorem innerJoinAux_length (l r : List Cell) (i : Nat) :
    (innerJoinAux l r i).length = (l.map (fun k => matchCount k r)).sum := by
  induction l generalizing i with
  | nil => rfl
  | cons k ls ih =>
      rw [innerJoinAux, List.length_append, List.length_map, List.map_cons,
        List.sum_cons, matchIdxs_length, ih (i + 1)]

/-- Inner-join row count is the sum over probe rows of the number of
build-side matches. -/
theorem innerJoin_length (l r : List Cell) :
    (innerJoin l r).length = (l.map (fun k => matchCount k r)).sum :=
  innerJoinAux_length l r 0

theorem sum_map_add_distrib (r : List Cell) (f g : Cell → Nat) :
    (r.map (fun y => f y + g y)).sum = (r.map f).sum + (r.map g).sum := by
  induction r with
  | nil => rfl
  | cons y ys ih => simp [List.map_cons, List.sum_cons, ih]; omega

theorem sum_map_ite_eq (r : List Cell) (k : Cell) :
    (r.map (fun y => if k = y then 1 else 0)).sum = matchCount k r := by
  induction r with
  | nil => rfl
  | cons y ys ih =>
      rw [List.map_cons, List.sum_cons, ih]
      by_cases h : y = k
      · simp [matchCount, List.countP_cons, h]; omega
      · have h2 : ¬ k = y := fun hh => h hh.symm
        simp [matchCount, List.countP_cons, h, h2]

/-- Double counting: summing over probe rows the number of build matches
equals summing over build rows the number of probe matches. -/
theorem sum_matchCount_comm (l r : List Cell) :
    (l.map (fun k => matchCount k r)).sum =
      (r.map (fun y => matchCount y l)).sum := by
  induction l with
  | nil =>
      simp [matchCount, List.countP_nil]
  | cons k ls ih =>
      rw [List.map_cons, List.sum_cons, ih]
      have hstep : ∀ y : Cell, matchCount y (k :: ls) =
          (if k = y then 1 else 0) + matchCount y ls := by
        intro y
        by_cases h : k = y
        · simp [matchCount, List.countP_cons, h]; omega
        · simp [matchCount, List.countP_cons, h]
      calc matchCount k r + (r.map (fun y => matchCount y ls)).sum
          = (r.map (fun y => if k = y then 1 else 0)).sum +
              (r.map (fun y => matchCount y ls)).sum := by
            rw [sum_map_ite_eq]
        _ = (r.map (fun y => (if k = y then 1 else 0) + matchCount y ls)).sum := by
            rw [sum_map_add_distrib]
        _ = (r.map (fun y => matchCount y (k :: ls))).sum := by
            refine congrArg List.sum (List.map_congr_left ?_)
            intro y _
            exact (hstep y).symm

/-- Each matched probe row contributes at least one inner pair. -/
theorem matchedCount_le_sum (l r : List Cell) :
    matchedCount l r ≤ (l.map (fun k => matchCount k r)).sum := by
  induction l with
  | nil => exact Nat.le_refl 0
  | cons k ls ih =>
      rw [matchedCount, List.filter_cons, List.map_cons, List.sum_cons]
      by_cases h : (matchIdxs k r).isEmpty = true
      · rw [if_neg (by simp [h])]
        exact Nat.le_trans ih (Nat.le_add_left _ _)
      · rw [if_pos (by simp [h])]
        have hpos : 1 ≤ matchCount k r := by
          rcases Nat.eq_zero_or_pos (matchCount k r) with h0 | h0
          · exact absurd ((matchIdxs_isEmpty_iff k r).mpr h0) h
          · exact h0
        have hih := ih
        rw [matchedCount] at hih
        simp only [List.length_cons]
        omega

theorem leftOuterJoinAux_length (l r : List Cell) (i : Nat) :
    l.length ≤ (leftOuterJoinAux l r i).length := by
  induction l generalizing i with
  | nil => exact Nat.le_refl 0
  | cons k ls ih =>
      rw [leftOuterJoinAux, List.length_append]
      have h1 : 1 ≤ (if (matchIdxs k r).isEmpty then [((i : Nat), (none : Option Nat))]
          else (matchIdxs k r).map (fun j => (i, some j))).length := by
        by_cases h : (matchIdxs k r).isEmpty = true
        · rw [if_pos h]; exact Nat.le_refl 1
        · rw [if_neg h, List.length_map]
          rcases Nat.eq_zero_or_pos (matchIdxs k r).length with h0 | h0
          · exact absurd (List.isEmpty_iff_length_eq_zero.mpr h0) h
          · exact h0
      have h2 := ih (i + 1)
      simp only [List.length_cons]
      omega

theorem leftAntiIdxsAux_length (l r : List Cell) (i : Nat) :
    (leftAntiIdxsAux l r i).length =
      (l.filter (fun k => (matchIdxs k r).isEmpty)).length := by
  induction l generalizing i with
  | nil => rfl
  | cons k ls ih =>
      rw [leftAntiIdxsAux, List.length_append, List.filter_cons, ih (i + 1)]
      by_cases h : (matchIdxs k r).isEmpty = true
      · rw [if_pos h, if_pos h]
        simp [Nat.add_comm]
      · rw [if_neg h, if_neg h]
        simp

/-- **C4 counterexample.** With duplicate keys on both sides the
inner-join row count exceeds the minimum of the per-side matched-row
counts: joining keys `[1,1]` with `[1,1]` yields 4 rows, while each side
has only 2 rows with at least one match, so the claimed bound
`count ≤ min` fails. -/
theorem c4_counterexample :
    (innerJoin [some 1, some 1] [some 1, some 1]).length = 4 ∧
    matchedCount [some 1, some 1] [some 1, some 1] = 2 ∧
    ¬ ((innerJoin [some 1, some 1] [some 1, some 1]).length ≤
        min (matchedCount [some 1, some 1] [some 1, some 1])
          (matchedCount [some 1, some 1] [some 1, some 1])) := by
  decide

/-- **C4 (amended).** For every pair of key columns joined on equi-keys:
the inner-join row count equals the sum over probe rows of the number of
build-side matches and is at least (not at most) the number of rows with
at least one match on either side; the left-outer row count is at least
the probe-side row count; the full-outer row count is the inner count
plus the left-anti and right-anti counts; and inner join of `[1,2,3]`
with `[2,3,4]` yields exactly the 2 rows pairing (2,2) and (3,3). -/
theorem c4_join_counts (l r : List Cell) :
    (innerJoin l r).length = (l.map (fun k => matchCount k r)).sum ∧
    matchedCount l r ≤ (innerJoin l r).length ∧
    matchedCount r l ≤ (innerJoin l r).length ∧
    l.length ≤ (leftOuterJoin l r).length ∧
    (fullOuterJoin l r).length =
      (innerJoin l r).length + (leftAntiIdxs l r).length +
        (leftAntiIdxs r l).length ∧
    innerJoinPairs [some 1, some 2, some 3] [some 2, some 3, some 4] =
      [(some 2, some 2), (some 3, some 3)] ∧
    (innerJoin [some 1, some 2, some 3] [some 2, some 3, some 4]).length = 2 := by
  refine ⟨innerJoin_length l r, ?_, ?_, leftOuterJoinAux_length l r 0, ?_,
    by decide, by decide⟩
  · rw [innerJoin_length]
    exact matchedCount_le_sum l r
  · rw [innerJoin_length, sum_matchCount_comm]
    exact matchedCount_le_sum r l
  · rw [fullOuterJoin, List.length_append, List.length_append,
      List.length_map, List.length_map, List.length_map]

/-! ## Error propagation and degenerate join inputs (spec §7, §4.4),
claim C8 -/

/-- The element type tags of a Column (a representative subset of the
spec's fixed catalog, spec §3). -/
inductive ElemTy where
  | int32
  | int64
  | float64
  | boolean
deriving DecidableEq

/-- A Column together with its element type tag. -/
structure TypedCol where
  ty : ElemTy
  cells : List Cell

/-- The join variants of the engine (spec §4.4). -/
inductive JoinVariant where
  | inner
  | leftOuter
  | fullOuter
  | leftSemi
  | leftAnti
deriving DecidableEq

/-- The index-pair table a join variant assembles (`none` the sentinel
for unmatched rows, spec §4.4). -/
def joinIdxTable (v : JoinVariant) (a b : List Cell) :
    List (Option Nat × Option Nat) :=
  match v with
  | JoinVariant.inner => (innerJoin a b).map (fun q => (some q.1, some q.2))
  | JoinVariant.leftOuter => (leftOuterJoin a b).map (fun q => (some q.1, q.2))
  | JoinVariant.fullOuter => fullOuterJoin a b
  | JoinVariant.leftSemi => (leftSemiIdxs a b).map (fun i => (some i, none))
  | JoinVariant.leftAnti => (leftAntiIdxs a b).map (fun i => (some i, none))

/-- Modelled from the spec: the `join` entry point — key columns of
incomparable types fail with `TypeMismatch`; otherwise the variant's
index-pair table is returned; degenerate (empty) inputs are ordinary
inputs. -/
def joinOp (v : JoinVariant) (a b : TypedCol) :
    Except ErrKind (List (Option Nat × Option Nat)) :=
  if a.ty = b.ty then Except.ok (joinIdxTable v a.cells b.cells)
  else Except.error ErrKind.typeMismatch

theorem matchIdxs_nil (k : Cell) : matchIdxs k [] = [] := rfl

theorem innerJoinAux_nil_right (l : List Cell) (i : Nat) :
    innerJoinAux l [] i = [] := by
  induction l generalizing i with
  | nil => rfl
  | cons k ls ih => rw [innerJoinAux, matchIdxs_nil, List.map_nil,
      List.nil_append, ih (i + 1)]

theorem leftOuterJoinAux_nil_length (l : List Cell) (i : Nat) :
    (leftOuterJoinAux l [] i).length = l.length := by
  induction l generalizing i with
  | nil => rfl
  | cons k ls ih =>
      rw [leftOuterJoinAux, matchIdxs_nil]
      simp [ih (i + 1)]

theorem leftOuterJoinAux_nil_snd (l : List Cell) (i : Nat) :
    ∀ q ∈ leftOuterJoinAux l [] i, q.2 = none := by
  induction l generalizing i with
  | nil => intro q hq; exact absurd hq (List.not_mem_nil q)
  | cons k ls ih =>
      intro q hq
      rw [leftOuterJoinAux, matchIdxs_nil] at hq
      simp only [List.isEmpty_nil, if_pos rfl, List.singleton_append] at hq
      cases hq with
      | head => rfl
      | tail _ h2 => exact ih (i + 1) q h2

/-- **C8.** Engine calls return either a fully valid result or an error,
synchronously: a join on type-compatible keys always returns a result
(empty build or probe side included), a join on incompatible key types
fails with `TypeMismatch` and returns nothing, an empty probe or build
side yields the empty or all-unmatched output of the variant rather than
an error, and a cast that returns a column returns one with the full
input row count — never a partial one. -/
theorem c8_valid_or_error (v : JoinVariant) (lc rc : TypedCol) (t : ElemTy)
    (c : List Cell) (p : CastPolicy) (lo hi : Int) (xs : List Int)
    (out : Column) :
    (lc.ty = rc.ty → ∃ res, joinOp v lc rc = Except.ok res) ∧
    (¬ lc.ty = rc.ty → joinOp v lc rc = Except.error ErrKind.typeMismatch) ∧
    joinOp JoinVariant.inner ⟨t, []⟩ ⟨t, c⟩ = Except.ok [] ∧
    joinOp JoinVariant.inner ⟨t, c⟩ ⟨t, []⟩ = Except.ok [] ∧
    (∃ res, joinOp JoinVariant.leftOuter ⟨t, c⟩ ⟨t, []⟩ = Except.ok res ∧
      res.length = c.length ∧ ∀ q ∈ res, q.2 = none) ∧
    (castColumn p lo hi xs = Except.ok out → out.length = xs.length) := by
  refine ⟨?_, ?_, ?_, ?_, ?_, ?_⟩
  · intro h
    rw [joinOp, if_pos h]
    exact ⟨_, rfl⟩
  · intro h
    rw [joinOp, if_neg h]
  · rw [joinOp, if_pos rfl]
    simp [joinIdxTable, innerJoin, innerJoinAux]
  · rw [joinOp, if_pos rfl]
    simp [joinIdxTable, innerJoin, innerJoinAux_nil_right]
  · refine ⟨(leftOuterJoin c []).map (fun q => (some q.1, q.2)), ?_, ?_, ?_⟩
    · rw [joinOp, if_pos rfl]
      rfl
    · rw [List.length_map, leftOuterJoin, leftOuterJoinAux_nil_length]
    · intro q hq
      rcases List.mem_map.mp hq with ⟨a, ha, rfl⟩
      exact leftOuterJoinAux_nil_snd c 0 a ha
  · intro hok
    cases p with
    | failOnLoss =>
        rw [castColumn] at hok
        by_cases hc : (xs.all fun v => decide (lo ≤ v) && decide (v ≤ hi)) = true
        · rw [if_pos hc] at hok
          have h := Except.ok.inj hok
          rw [← h, List.length_map]
        · rw [if_neg hc] at hok
          exact Except.noConfusion hok
    | saturate =>
        have h := Except.ok.inj hok
        rw [← h, List.length_map]
    | nullify =>
        have h := Except.ok.inj hok
        rw [← h, List.length_map]

/-- **C8 witness**: a same-typed join returns a result, a join of `int32`
keys against `int64` keys fails with `TypeMismatch`, and a saturating
cast of `[5]` into `[0, 3]` returns a full-length column. -/
theorem c8_witness :
    (∃ res, joinOp JoinVariant.inner ⟨ElemTy.int32, [some 1]⟩
        ⟨ElemTy.int32, [some 1]⟩ = Except.ok res) ∧
    joinOp JoinVariant.inner ⟨ElemTy.int32, [some 1]⟩
        ⟨ElemTy.int64, [some 1]⟩ = Except.error ErrKind.typeMismatch ∧
    ([some 3] : Column).length = [(5 : Int)].length :=
  ⟨(c8_valid_or_error JoinVariant.inner ⟨ElemTy.int32, [some 1]⟩
      ⟨ElemTy.int32, [some 1]⟩ ElemTy.int32 [] CastPolicy.saturate 0 3 [5]
      [some 3]).1 rfl,
   (c8_valid_or_error JoinVariant.inner ⟨ElemTy.int32, [some 1]⟩
      ⟨ElemTy.int64, [some 1]⟩ ElemTy.int32 [] CastPolicy.saturate 0 3 [5]
      [some 3]).2.1 (by decide),
   (c8_valid_or_error JoinVariant.inner ⟨ElemTy.int32, [some 1]⟩
      ⟨ElemTy.int32, [some 1]⟩ ElemTy.int32 [] CastPolicy.saturate 0 3 [5]
      [some 3]).2.2.2.2.2 rfl⟩

/-! ## Sort engine (spec §4.3), claim C3 -/

theorem ordSwap_swap (o : Ordering) : o.swap.swap = o := by
  cases o <;> rfl

theorem ordSwap_eq_iff (o : Ordering) : o.swap = Ordering.eq ↔ o = Ordering.eq := by
  cases o <;> simp [Ordering.swap]

theorem ordSwap_lt_iff (o : Ordering) : o.swap = Ordering.lt ↔ o = Ordering.gt := by
  cases o <;> simp [Ordering.swap]

/-- Three-way comparison of element values. -/
def intCmp (x y : Int) : Ordering :=
  if x < y then Ordering.lt else if x = y then Ordering.eq else Ordering.gt

theorem intCmp_lt_iff (x y : Int) : intCmp x y = Ordering.lt ↔ x < y := by
  unfold intCmp
  split_ifs with h1 h2
  · simp [h1]
  · simp; omega
  · simp; omega

theorem intCmp_eq_iff (x y : Int) : intCmp x y = Ordering.eq ↔ x = y := by
  unfold intCmp
  split_ifs with h1 h2
  · simp; omega
  · simp [h2]
  · simp; omega

theorem intCmp_gt_iff (x y : Int) : intCmp x y = Ordering.gt ↔ y < x := by
  unfold intCmp
  split_ifs with h1 h2
  · simp; omega
  · simp; omega
  · simp; omega

theorem intCmp_swap (x y : Int) : (intCmp x y).swap = intCmp y x := by
  rcases lt_trichotomy x y with h | h | h
  · rw [(intCmp_lt_iff x y).mpr h, (intCmp_gt_iff y x).mpr h]; rfl
  · rw [(intCmp_eq_iff x y).mpr h, (intCmp_eq_iff y x).mpr h.symm]; rfl
  · rw [(intCmp_gt_iff x y).mpr h, (intCmp_lt_iff y x).mpr h]; rfl

/-- Modelled from the spec: comparison of nullable cells under a
null-placement policy (`nf = true`: nulls first) — nulls compare equal to
nulls and sort before (or after) all values (spec §4.3). -/
def cellCmp (nf : Bool) : Cell → Cell → Ordering
  | none, none => Ordering.eq
  | none, some _ => if nf then Ordering.lt else Ordering.gt
  | some _, none => if nf then Ordering.gt else Ordering.lt
  | some x, some y => intCmp x y

theorem cellCmp_eq_iff (nf : Bool) (a b : Cell) :
    cellCmp nf a b = Ordering.eq ↔ a = b := by
  cases a <;> cases b
  · simp [cellCmp]
  · cases nf <;> simp [cellCmp]
  · cases nf <;> simp [cellCmp]
  · simp [cellCmp, intCmp_eq_iff]

theorem cellCmp_swap (nf : Bool) (a b : Cell) :
    (cellCmp nf a b).swap = cellCmp nf b a := by
  cases a <;> cases b
  · rfl
  · cases nf <;> rfl
  · cases nf <;> rfl
  · exact intCmp_swap _ _

theorem cellCmp_lt_trans (nf : Bool) {a b c : Cell}
    (h1 : cellCmp nf a b = Ordering.lt) (h2 : cellCmp nf b c = Ordering.lt) :
    cellCmp nf a c = Ordering.lt := by
  cases a <;> cases b <;> cases c <;> cases nf <;>
    simp_all [cellCmp, intCmp_lt_iff] <;> omega

/-- The key cell a sort key selects from a row (out-of-range treated as
null). -/
def keyCell (x : Row) (c : Nat) : Cell := (x[c]?).getD none

/-- Modelled from the spec: comparison under one sort key (column index,
ascending flag) — descending keys flip the cell comparison. -/
def keyCmp (nf : Bool) (k : Nat × Bool) (x y : Row) : Ordering :=
  if k.2 then cellCmp nf (keyCell x k.1) (keyCell y k.1)
  else (cellCmp nf (keyCell x k.1) (keyCell y k.1)).swap

theorem keyCmp_eq_iff (nf : Bool) (k : Nat × Bool) (x y : Row) :
    keyCmp nf k x y = Ordering.eq ↔ keyCell x k.1 = keyCell y k.1 := by
  unfold keyCmp
  split_ifs
  · exact cellCmp_eq_iff nf _ _
  · exact (ordSwap_eq_iff _).trans (cellCmp_eq_iff nf _ _)

theorem keyCmp_swap (nf : Bool) (k : Nat × Bool) (x y : Row) :
    (keyCmp nf k x y).swap = keyCmp nf k y x := by
  unfold keyCmp
  split_ifs
  · exact cellCmp_swap nf _ _
  · rw [ordSwap_swap, ← cellCmp_swap nf (keyCell y k.1) (keyCell x k.1)]

theorem keyCmp_lt_trans (nf : Bool) (k : Nat × Bool) {x y z : Row}
    (h1 : keyCmp nf k x y = Ordering.lt) (h2 : keyCmp nf k y z = Ordering.lt) :
    keyCmp nf k x z = Ordering.lt := by
  unfold keyCmp at h1 h2 ⊢
  split_ifs at h1 h2 ⊢ with hdir
  · exact cellCmp_lt_trans nf h1 h2
  · rw [ordSwap_lt_iff] at h1 h2 ⊢
    have g1 : cellCmp nf (keyCell y k.1) (keyCell x k.1) = Ordering.lt := by
      rw [← cellCmp_swap nf (keyCell x k.1) (keyCell y k.1), h1]; rfl
    have g2 : cellCmp nf (keyCell z k.1) (keyCell y k.1) = Ordering.lt := by
      rw [← cellCmp_swap nf (keyCell y k.1) (keyCell z k.1), h2]; rfl
    have g3 := cellCmp_lt_trans nf g2 g1
    rw [← cellCmp_swap nf (keyCell z k.1) (keyCell x k.1), g3]; rfl

theorem keyCmp_congr (nf : Bool) (k : Nat × Bool) {x x' y y' : Row}
    (hx : keyCell x k.1 = keyCell x' k.1) (hy : keyCell y k.1 = keyCell y' k.1) :
    keyCmp nf k x y = keyCmp nf k x' y' := by
  unfold keyCmp
  rw [hx, hy]

/-- Modelled from the spec: multi-key lexicographic row comparison —
keys compared left to right, short-circuiting at the first non-tie
(spec §4.3). -/
def rowCmp (nf : Bool) (ks : List (Nat × Bool)) (x y : Row) : Ordering :=
  match ks with
  | [] => Ordering.eq
  | k :: rest =>
      if keyCmp nf k x y = Ordering.eq then rowCmp nf rest x y
      else keyCmp nf k x y

/-- The tuple of key cells of a row. -/
def keyCells (ks : List (Nat × Bool)) (x : Row) : List Cell :=
  ks.map (fun k => keyCell x k.1)

theorem rowCmp_eq_iff (nf : Bool) (ks : List (Nat × Bool)) (x y : Row) :
    rowCmp nf ks x y = Ordering.eq ↔ keyCells ks x = keyCells ks y := by
  induction ks with
  | nil => simp [rowCmp, keyCells]
  | cons k rest ih =>
      rw [rowCmp]
      by_cases h : keyCmp nf k x y = Ordering.eq
      · rw [if_pos h]
        simp [keyCells, List.map_cons, ih, (keyCmp_eq_iff nf k x y).mp h,
          keyCells]
      · rw [if_neg h]
        simp only [keyCells, List.map_cons, List.cons.injEq]
        constructor
        · intro hh; exact absurd hh h
        · intro hh; exact absurd ((keyCmp_eq_iff nf k x y).mpr hh.1) h

theorem rowCmp_swap (nf : Bool) (ks : List (Nat × Bool)) (x y : Row) :
    (rowCmp nf ks x y).swap = rowCmp nf ks y x := by
  induction ks with
  | nil => rfl
  | cons k rest ih =>
      rw [rowCmp, rowCmp]
      by_cases h : keyCmp nf k x y = Ordering.eq
      · have h' : keyCmp nf k y x = Ordering.eq := by
          rw [← keyCmp_swap nf k x y, h]; rfl
        rw [if_pos h, if_pos h', ih]
      · have h' : ¬ keyCmp nf k y x = Ordering.eq := by
          intro hh
          rw [← keyCmp_swap nf k x y, ordSwap_eq_iff] at hh
          exact h hh
        rw [if_neg h, if_neg h', keyCmp_swap]

theorem rowCmp_congr (nf : Bool) (ks : List (Nat × Bool)) {x x' y y' : Row}
    (hx : keyCells ks x = keyCells ks x') (hy : keyCells ks y = keyCells ks y') :
    rowCmp nf ks x y = rowCmp nf ks x' y' := by
  induction ks with
  | nil => rfl
  | cons k rest ih =>
      simp only [keyCells, List.map_cons, List.cons.injEq] at hx hy
      rw [rowCmp, rowCmp, keyCmp_congr nf k hx.1 hy.1, ih hx.2 hy.2]

theorem rowCmp_lt_trans (nf : Bool) (ks : List (Nat × Bool)) {x y z : Row}
    (h1 : rowCmp nf ks x y = Ordering.lt) (h2 : rowCmp nf ks y z = Ordering.lt) :
    rowCmp nf ks x z = Ordering.lt := by
  induction ks with
  | nil => exact Ordering.noConfusion h1
  | cons k rest ih =>
      rw [rowCmp] at h1 h2 ⊢
      by_cases e1 : keyCmp nf k x y = Ordering.eq
      · rw [if_pos e1] at h1
        have hc1 : keyCell x k.1 = keyCell y k.1 := (keyCmp_eq_iff nf k x y).mp e1
        by_cases e2 : keyCmp nf k y z = Ordering.eq
        · rw [if_pos e2] at h2
          have hc2 : keyCell y k.1 = keyCell z k.1 := (keyCmp_eq_iff nf k y z).mp e2
          rw [if_pos ((keyCmp_eq_iff nf k x z).mpr (hc1.trans hc2))]
          exact ih h1 h2
        · rw [if_neg e2] at h2
          have e3 : keyCmp nf k x z = keyCmp nf k y z :=
            keyCmp_congr nf k hc1 rfl
          rw [if_neg (by rw [e3]; exact e2), e3]
          exact h2
      · rw [if_neg e1] at h1
        by_cases e2 : keyCmp nf k y z = Ordering.eq
        · rw [if_pos e2] at h2
          have hc2 : keyCell y k.1 = keyCell z k.1 := (keyCmp_eq_iff nf k y z).mp e2
          have e3 : keyCmp nf k x z = keyCmp nf k x y :=
            keyCmp_congr nf k rfl hc2.symm
          have hne : ¬ keyCmp nf k x z = Ordering.eq := by
            rw [e3]; exact e1
          rw [if_neg hne, e3]
          exact h1
        · rw [if_neg e2] at h2
          have e3 : keyCmp nf k x z = Ordering.lt := keyCmp_lt_trans nf k h1 h2
          rw [if_neg (by rw [e3]; decide), e3]

/-- The row of a Table at an index (out-of-range yields the empty row). -/
def rowOf (T : List Row) (i : Nat) : Row := (T[i]?).getD []

/-- Modelled from the spec: the sort comparator over row indices — rows
compared by the multi-key comparison, ties on all keys broken by original
row index, which makes the produced order stable (spec §4.3). -/
def idxLe (T : List Row) (nf : Bool) (ks : List (Nat × Bool)) (i j : Nat) :
    Bool :=
  match rowCmp nf ks (rowOf T i) (rowOf T j) with
  | Ordering.lt => true
  | Ordering.eq => decide (i ≤ j)
  | Ordering.gt => false

theorem idxLe_total (T : List Row) (nf : Bool) (ks : List (Nat × Bool))
    (i j : Nat) : (idxLe T nf ks i j || idxLe T nf ks j i) = true := by
  unfold idxLe
  have hs := rowCmp_swap nf ks (rowOf T i) (rowOf T j)
  cases hrc : rowCmp nf ks (rowOf T i) (rowOf T j) with
  | lt => simp
  | eq =>
      have hji : rowCmp nf ks (rowOf T j) (rowOf T i) = Ordering.eq := by
        rw [← hs, hrc]; rfl
      rcases Nat.le_total i j with h | h <;> simp [hji, h]
  | gt =>
      have hji : rowCmp nf ks (rowOf T j) (rowOf T i) = Ordering.lt := by
        rw [← hs, hrc]; rfl
      simp [hji]

theorem idxLe_trans (T : List Row) (nf : Bool) (ks : List (Nat × Bool))
    (i j k : Nat) (h1 : idxLe T nf ks i j = true)
    (h2 : idxLe T nf ks j k = true) : idxLe T nf ks i k = true := by
  unfold idxLe at h1 h2 ⊢
  cases hij : rowCmp nf ks (rowOf T i) (rowOf T j) with
  | lt =>
      cases hjk : rowCmp nf ks (rowOf T j) (rowOf T k) with
      | lt => simp [rowCmp_lt_trans nf ks hij hjk]
      | eq =>
          have hik : rowCmp nf ks (rowOf T i) (rowOf T k) =
              rowCmp nf ks (rowOf T i) (rowOf T j) :=
            rowCmp_congr nf ks rfl ((rowCmp_eq_iff nf ks _ _).mp hjk).symm
          simp [hik, hij]
      | gt => rw [hjk] at h2; simp at h2
  | eq =>
      rw [hij] at h1
      have l1 : i ≤ j := of_decide_eq_true h1
      have hcij := (rowCmp_eq_iff nf ks _ _).mp hij
      cases hjk : rowCmp nf ks (rowOf T j) (rowOf T k) with
      | lt =>
          have hik : rowCmp nf ks (rowOf T i) (rowOf T k) =
              rowCmp nf ks (rowOf T j) (rowOf T k) :=
            rowCmp_congr nf ks hcij rfl
          simp [hik, hjk]
      | eq =>
          rw [hjk] at h2
          have l2 : j ≤ k := of_decide_eq_true h2
          have hik : rowCmp nf ks (rowOf T i) (rowOf T k) = Ordering.eq :=
            (rowCmp_eq_iff nf ks _ _).mpr
              (hcij.trans ((rowCmp_eq_iff nf ks _ _).mp hjk))
          simp [hik]
          omega
      | gt => rw [hjk] at h2; simp at h2
  | gt => rw [hij] at h1; simp at h1

/-- Modelled from the spec: the sort engine's permutation output — a
stable merge sort of the row indices under the multi-key comparator with
index tie-break (spec §4.3). -/
def sortPerm (T : List Row) (nf : Bool) (ks : List (Nat × Bool)) :
    List Nat :=
  (List.range T.length).mergeSort (idxLe T nf ks)

/-- Materializing a permutation (or any index list) into a reordered
Table. -/
def gatherRows (T : List Row) (p : List Nat) : List Row := p.map (rowOf T)

/-- Modelled from the spec: the materialized sorted Table. -/
def sortTable (T : List Row) (nf : Bool) (ks : List (Nat × Bool)) :
    List Row :=
  gatherRows T (sortPerm T nf ks)

/-- The inverse of a permutation given as an index list. -/
def invPerm (p : List Nat) : List Nat :=
  (List.range p.length).map (fun i => List.indexOf i p)

theorem sortPerm_perm (T : List Row) (nf : Bool) (ks : List (Nat × Bool)) :
    (sortPerm T nf ks).Perm (List.range T.length) :=
  List.mergeSort_perm _ _

theorem sortPerm_length (T : List Row) (nf : Bool) (ks : List (Nat × Bool)) :
    (sortPerm T nf ks).length = T.length :=
  (sortPerm_perm T nf ks).length_eq.trans (List.length_range _)

theorem sortPerm_pairwise (T : List Row) (nf : Bool)
    (ks : List (Nat × Bool)) :
    List.Pairwise (fun a b => idxLe T nf ks a b = true) (sortPerm T nf ks) :=
  List.sorted_mergeSort (idxLe_trans T nf ks) (idxLe_total T nf ks) _

theorem sortPerm_nodup (T : List Row) (nf : Bool) (ks : List (Nat × Bool)) :
    (sortPerm T nf ks).Nodup :=
  ((sortPerm_perm T nf ks).nodup_iff).mpr (List.nodup_range _)

theorem gatherRows_range (L : List Row) :
    gatherRows L (List.range L.length) = L := by
  apply List.ext_getElem
  · rw [gatherRows, List.length_map, List.length_range]
  · intro n h1 h2
    simp only [gatherRows] at h1 ⊢
    rw [List.getElem_map, List.getElem_range, rowOf,
      List.getElem?_eq_getElem h2, Option.getD_some]

theorem sortTable_idempotent (T : List Row) (nf : Bool)
    (ks : List (Nat × Bool)) :
    sortTable (sortTable T nf ks) nf ks = sortTable T nf ks := by
  have hlen : (sortTable T nf ks).length = T.length := by
    rw [sortTable, gatherRows, List.length_map, sortPerm_length]
  have hrowS : ∀ (i : Nat) (hi : i < (sortPerm T nf ks).length),
      rowOf (sortTable T nf ks) i = rowOf T ((sortPerm T nf ks)[i]) := by
    intro i hi
    rw [rowOf, sortTable, gatherRows, List.getElem?_map,
      List.getElem?_eq_getElem hi, Option.map_some', Option.getD_some]
  have hpairT := List.pairwise_iff_getElem.mp (sortPerm_pairwise T nf ks)
  have hpairS : List.Pairwise
      (fun a b => idxLe (sortTable T nf ks) nf ks a b = true)
      (List.range (sortTable T nf ks).length) := by
    rw [List.pairwise_iff_getElem]
    intro i j hi hj hij
    rw [List.length_range] at hi hj
    rw [List.getElem_range, List.getElem_range]
    have hi' : i < (sortPerm T nf ks).length := by
      rw [sortPerm_length]; omega
    have hj' : j < (sortPerm T nf ks).length := by
      rw [sortPerm_length]; omega
    have hidx := hpairT i j hi' hj' hij
    unfold idxLe at hidx ⊢
    rw [hrowS i hi', hrowS j hj']
    cases hrc : rowCmp nf ks (rowOf T ((sortPerm T nf ks)[i]))
        (rowOf T ((sortPerm T nf ks)[j])) with
    | lt => simp
    | eq => simp; omega
    | gt => rw [hrc] at hidx; simp at hidx
  have hperm : sortPerm (sortTable T nf ks) nf ks =
      List.range (sortTable T nf ks).length := by
    rw [sortPerm]
    exact List.mergeSort_of_sorted hpairS
  rw [show sortTable (sortTable T nf ks) nf ks =
      gatherRows (sortTable T nf ks) (sortPerm (sortTable T nf ks) nf ks)
    from rfl]
  rw [hperm, gatherRows_range]

theorem gatherRows_invPerm (L : List Row) (p : List Nat)
    (hp : p.Perm (List.range L.length)) :
    gatherRows (gatherRows L p) (invPerm p) = L := by
  have hplen : p.length = L.length := hp.length_eq.trans (List.length_range _)
  apply List.ext_getElem?
  intro n
  by_cases hn : n < L.length
  · have hn' : n < p.length := by omega
    rw [gatherRows, List.getElem?_map, invPerm, List.getElem?_map,
      List.getElem?_range hn', Option.map_some', Option.map_some']
    have hmem : n ∈ p := hp.mem_iff.mpr (List.mem_range.mpr hn)
    have hidxlt : List.indexOf n p < p.length := List.indexOf_lt_length.mpr hmem
    have hpidx : p[List.indexOf n p] = n := by
      have h := List.indexOf_get hidxlt
      simp only [List.get_eq_getElem] at h
      exact h
    rw [rowOf, gatherRows, List.getElem?_map, List.getElem?_eq_getElem hidxlt,
      Option.map_some', Option.getD_some, hpidx, rowOf,
      List.getElem?_eq_getElem hn, Option.getD_some]
  · rw [gatherRows, List.getElem?_map, invPerm, List.getElem?_map]
    have h1 : (List.range p.length)[n]? = none :=
      List.getElem?_eq_none_iff.mpr (by rw [List.length_range]; omega)
    have h2 : L[n]? = none := List.getElem?_eq_none_iff.mpr (by omega)
    rw [h1, h2]; rfl

/-- **C3.** The sort engine is a stable total order: rows tied on all
keys keep their original relative order (positions earlier in the output
carry smaller original indices), applying the sort twice yields
identical output, and composing the sorted Table with the inverse of the
sort permutation reconstructs the input Table exactly. -/
theorem c3_sort_engine (T : List Row) (nf : Bool) (ks : List (Nat × Bool)) :
    (∀ p q : Nat, p < q → q < (sortPerm T nf ks).length →
      rowCmp nf ks (rowOf T (((sortPerm T nf ks)[p]?).getD 0))
        (rowOf T (((sortPerm T nf ks)[q]?).getD 0)) = Ordering.eq →
      ((sortPerm T nf ks)[p]?).getD 0 < ((sortPerm T nf ks)[q]?).getD 0) ∧
    sortTable (sortTable T nf ks) nf ks = sortTable T nf ks ∧
    gatherRows (sortTable T nf ks) (invPerm (sortPerm T nf ks)) = T := by
  refine ⟨?_, sortTable_idempotent T nf ks, ?_⟩
  · intro p q hpq hq heq
    have hp : p < (sortPerm T nf ks).length := lt_trans hpq hq
    have e1 : ((sortPerm T nf ks)[p]?).getD 0 = (sortPerm T nf ks)[p] := by
      rw [List.getElem?_eq_getElem hp, Option.getD_some]
    have e2 : ((sortPerm T nf ks)[q]?).getD 0 = (sortPerm T nf ks)[q] := by
      rw [List.getElem?_eq_getElem hq, Option.getD_some]
    rw [e1, e2] at heq ⊢
    have hpair := List.pairwise_iff_getElem.mp (sortPerm_pairwise T nf ks)
      p q hp hq hpq
    unfold idxLe at hpair
    rw [heq] at hpair
    have hle : (sortPerm T nf ks)[p] ≤ (sortPerm T nf ks)[q] :=
      of_decide_eq_true hpair
    have hne : ¬ (sortPerm T nf ks)[p] = (sortPerm T nf ks)[q] := by
      intro hcon
      have := ((sortPerm_nodup T nf ks).getElem_inj_iff).mp hcon
      omega
    omega
  · exact gatherRows_invPerm T (sortPerm T nf ks) (sortPerm_perm T nf ks)

/-- An in-range position of the sort permutation holds an in-range row
index of the input Table. -/
theorem sortPerm_getD_lt (T : List Row) (nf : Bool) (ks : List (Nat × Bool))
    (p : Nat) (hp : p < (sortPerm T nf ks).length) :
    ((sortPerm T nf ks)[p]?).getD 0 < T.length := by
  rw [List.getElem?_eq_getElem hp, Option.getD_some]
  have hmem : (sortPerm T nf ks)[p] ∈ sortPerm T nf ks :=
    List.getElem_mem hp
  have := (sortPerm_perm T nf ks).mem_iff.mp hmem
  exact List.mem_range.mp this

/-- Concrete Table for the sort witness: one key column with all rows
tied. -/
def tableC3 : List Row := [[some 1], [some 1], [some 1]]

/-- Concrete key specification for the sort witness: sort ascending on
column 0. -/
def keysC3 : List (Nat × Bool) := [(0, true)]

/-- **C3 witness**: on the concrete all-tied Table, positions 0 and 1 of
the permutation keep the original index order, resorting the sorted
Table changes nothing, and the inverse permutation reconstructs the
Table. -/
theorem c3_witness :
    ((sortPerm tableC3 true keysC3)[0]?).getD 0 <
      ((sortPerm tableC3 true keysC3)[1]?).getD 0 ∧
    sortTable (sortTable tableC3 true keysC3) true keysC3 =
      sortTable tableC3 true keysC3 ∧
    gatherRows (sortTable tableC3 true keysC3)
      (invPerm (sortPerm tableC3 true keysC3)) = tableC3 := by
  have hlen : (sortPerm tableC3 true keysC3).length = 3 := by
    rw [sortPerm_length]; rfl
  have hq : 1 < (sortPerm tableC3 true keysC3).length := by rw [hlen]; decide
  have hrow : ∀ i : Nat, i < 3 → rowOf tableC3 i = [some 1] := by
    intro i hi
    interval_cases i <;> rfl
  have h0 : ((sortPerm tableC3 true keysC3)[0]?).getD 0 < 3 :=
    sortPerm_getD_lt tableC3 true keysC3 0 (by omega)
  have h1 : ((sortPerm tableC3 true keysC3)[1]?).getD 0 < 3 :=
    sortPerm_getD_lt tableC3 true keysC3 1 hq
  have heq : rowCmp true keysC3
      (rowOf tableC3 (((sortPerm tableC3 true keysC3)[0]?).getD 0))
      (rowOf tableC3 (((sortPerm tableC3 true keysC3)[1]?).getD 0)) =
      Ordering.eq := by
    rw [hrow _ h0, hrow _ h1]
    exact (rowCmp_eq_iff true keysC3 _ _).mpr rfl
  exact ⟨(c3_sort_engine tableC3 true keysC3).1 0 1 (by decide) hq heq,
    (c3_sort_engine tableC3 true keysC3).2.1,
    (c3_sort_engine tableC3 true keysC3).2.2⟩

end Cudf
